import Mathlib

/-
Verification of the fastanvil top-shade rendering pipeline and the
chunk stratification layer (SectionTower), as a shallow embedding of
fastanvil/src/render.rs and fastanvil/src/complete/section_tower.rs.

Machine integers (u8, usize, isize) are modelled as Fin 256, Nat and Int,
with wrapping casts made explicit (`% 256`).  Rust integer division `/`
truncates toward zero; every division in the embedded code is applied to
non-negative operands, where truncation, floor and Euclidean division all
agree, so Lean division on Int/Nat is used directly.
-/

/-- A byte, the u8 type of the source. -/
abbrev Byte := Fin 256

/-- An RGBA colour, `type Rgba = [u8; 4]` in render.rs. -/
structure Rgba where
  r : Byte
  g : Byte
  b : Byte
  a : Byte
deriving DecidableEq, Repr

/-- Modelled from the spec: a Block is an opaque value type identifying a
voxel material, exposing at minimum a stable name usable for equality and
classification (spec section 3).  The concrete Block type lives in the
fastanvil crate outside the provided sources. -/
structure Block where
  name : String
deriving DecidableEq, Repr

/-- Modelled from the spec: a Biome is an opaque small value type
classifying climate/flora context (spec section 3).  The concrete enum
lives outside the provided sources. -/
structure Biome where
  id : Nat
deriving DecidableEq, Repr

/-- render.rs `is_watery`: blocks treated as water when determining colour. -/
def is_watery (block : Block) : Bool :=
  block.name == "minecraft:water"
    || block.name == "minecraft:bubble_column"
    || block.name == "minecraft:kelp"
    || block.name == "minecraft:kelp_plant"
    || block.name == "minecraft:sea_grass"
    || block.name == "minecraft:tall_seagrass"

/-- render.rs `is_airy`: blocks treated as air when determining colour. -/
def is_airy (block : Block) : Bool :=
  block.name == "minecraft:air" || block.name == "minecraft:cave_air"

/-- render.rs `water_depth_to_alpha`: `(180 + 2 * water_depth).min(250) as u8`.
The `as u8` cast wraps, i.e. takes the value modulo 256. -/
def water_depth_to_alpha (water_depth : Int) : Byte :=
  ⟨((min (180 + 2 * water_depth) 250) % 256).toNat, by omega⟩

/-- One RGB channel of render.rs `top_shade_colour`:
`(colour[i] as usize * shade / 255) as u8`. -/
def shade_channel (c : Byte) (shade : Nat) : Byte :=
  ⟨c.val * shade / 255 % 256, by omega⟩

/-- render.rs `top_shade_colour`: pick a shade factor from comparing the
height with the shade height (the Rust `match height.cmp(&shade_height)`,
written out as the same three-way comparison), scale each RGB channel by
shade/255 with integer truncation, and keep alpha. -/
def top_shade_colour (colour : Rgba) (height : Int) (shade_height : Int) : Rgba :=
  let shade : Nat :=
    if height < shade_height then 180
    else if height = shade_height then 220
    else 255
  ⟨shade_channel colour.r shade, shade_channel colour.g shade,
    shade_channel colour.b shade, colour.a⟩

/-- C7: for every depth d with 1 ≤ d, water_depth_to_alpha d equals
min (180 + 2 d) 250 as a byte; the function is monotone non-decreasing on
such depths, returns exactly 250 for every depth at least 35, and returns
182 for depth 1. -/
theorem water_depth_to_alpha_spec (d e : Int) (hd : 1 ≤ d) (hde : d ≤ e) :
    (water_depth_to_alpha d).val = (min (180 + 2 * d) 250).toNat
    ∧ (water_depth_to_alpha d).val ≤ (water_depth_to_alpha e).val
    ∧ (35 ≤ d → water_depth_to_alpha d = (250 : Byte))
    ∧ water_depth_to_alpha 1 = (182 : Byte) := by
  refine ⟨?_, ?_, ?_, ?_⟩
  · simp only [water_depth_to_alpha, min_def]
    split <;> omega
  · simp only [water_depth_to_alpha, min_def]
    split <;> split <;> omega
  · intro h35
    apply Fin.ext
    have hv : ((250 : Byte)).val = 250 := by decide
    simp only [water_depth_to_alpha, hv, min_def]
    split <;> omega
  · decide

/-- C7 witness: instantiation at depths 1 and 40. -/
theorem water_depth_to_alpha_spec_witness :
    (water_depth_to_alpha 1).val = (min (180 + 2 * (1 : Int)) 250).toNat
    ∧ (water_depth_to_alpha 1).val ≤ (water_depth_to_alpha 40).val
    ∧ (35 ≤ (40 : Int) → water_depth_to_alpha 40 = (250 : Byte))
    ∧ water_depth_to_alpha 1 = (182 : Byte) :=
  ⟨(water_depth_to_alpha_spec 1 40 (by decide) (by decide)).1,
   (water_depth_to_alpha_spec 1 40 (by decide) (by decide)).2.1,
   (water_depth_to_alpha_spec 40 40 (by decide) (by decide)).2.2.1,
   (water_depth_to_alpha_spec 1 40 (by decide) (by decide)).2.2.2⟩

/-- C8: top-shading uses shade factor 255 when the height is above the
comparison height, leaving the whole colour (hence every RGB channel)
unchanged; factor 220 on equal heights and 180 below, with each output
channel equal to the input channel times the factor divided by 255 with
integer truncation; the alpha channel is returned unchanged in all cases. -/
theorem top_shade_colour_spec (colour : Rgba) (h c : Int) :
    ((top_shade_colour colour h c).a = colour.a)
    ∧ (c < h → top_shade_colour colour h c = colour)
    ∧ (h = c →
        (top_shade_colour colour h c).r.val = colour.r.val * 220 / 255
        ∧ (top_shade_colour colour h c).g.val = colour.g.val * 220 / 255
        ∧ (top_shade_colour colour h c).b.val = colour.b.val * 220 / 255)
    ∧ (h < c →
        (top_shade_colour colour h c).r.val = colour.r.val * 180 / 255
        ∧ (top_shade_colour colour h c).g.val = colour.g.val * 180 / 255
        ∧ (top_shade_colour colour h c).b.val = colour.b.val * 180 / 255) := by
  obtain ⟨⟨r, hr⟩, ⟨g, hg⟩, ⟨b, hb⟩, ⟨a, ha⟩⟩ := colour
  refine ⟨rfl, ?_, ?_, ?_⟩
  · intro hlt
    have h1 : ¬ h < c := by omega
    have h2 : ¬ h = c := by omega
    simp only [top_shade_colour, shade_channel, h1, h2, if_false]
    refine congrArg₂ (Rgba.mk · · _ _) ?_ ?_ |>.trans (congrArg₂ (Rgba.mk _ _ · ·) ?_ rfl) <;>
      apply Fin.ext <;> simp <;> omega
  · intro heq
    have h1 : ¬ h < c := by omega
    simp only [top_shade_colour, shade_channel, h1, heq, if_false, if_true, if_pos rfl]
    refine ⟨?_, ?_, ?_⟩ <;> simp <;> omega
  · intro hlt
    simp only [top_shade_colour, shade_channel, if_pos hlt]
    refine ⟨?_, ?_, ?_⟩ <;> simp <;> omega

/-- C8 witness: instantiation at a concrete colour and concrete heights for
each of the three orderings. -/
theorem top_shade_colour_spec_witness :
    (top_shade_colour ⟨100, 150, 200, 7⟩ 5 3 = ⟨100, 150, 200, 7⟩)
    ∧ ((top_shade_colour ⟨100, 150, 200, 7⟩ 3 3).r.val = 100 * 220 / 255)
    ∧ ((top_shade_colour ⟨100, 150, 200, 7⟩ 2 3).r.val = 100 * 180 / 255)
    ∧ ((top_shade_colour ⟨100, 150, 200, 7⟩ 2 3).a = 7) :=
  ⟨(top_shade_colour_spec ⟨100, 150, 200, 7⟩ 5 3).2.1 (by decide),
   ((top_shade_colour_spec ⟨100, 150, 200, 7⟩ 3 3).2.2.1 rfl).1,
   ((top_shade_colour_spec ⟨100, 150, 200, 7⟩ 2 3).2.2.2 (by decide)).1,
   (top_shade_colour_spec ⟨100, 150, 200, 7⟩ 2 3).1⟩

/-
Alpha compositing, render.rs `a_over_b_colour`.  The source computes in
f32, and its rounding is visible in the results: the channel byte 1, for
example, does not survive the linearise/re-encode round trip.  The
embedding therefore models binary32 arithmetic exactly: values are the
rationals that binary32 numbers denote, every operation of the source is
followed by rounding to nearest with ties to even, and the one special
value that arises, NaN from the unguarded division 0/0 when both alpha
bytes are 0, is modelled explicitly as `none` (a nonzero numerator over
a zero denominator cannot arise: the numerator vanishes whenever the
combined alpha does).  The Rust saturating cast `as u8` maps NaN to 0
and otherwise truncates toward zero, clamping into 0..255.  Every value
of this pipeline lies well inside the normal binary32 range, so neither
subnormals nor overflow are modelled.
-/

/-- Fuel-bounded base-2 logarithm: for 1 ≤ n < 2 ^ fuel this is the
floor of log2 n.  The recursion stops as soon as n drops below 2, so
unused fuel costs nothing. -/
def log2fuel : Nat → Nat → Nat
  | 0, _ => 0
  | fuel + 1, n => if 2 ≤ n then log2fuel fuel (n / 2) + 1 else 0

/-- Floor of log2 for the magnitudes this development meets: 2500 units
of fuel cover every number below 2 ^ 2500, far beyond any scaled
binary32 quantity arising here. -/
def natLog2 (n : Nat) : Nat := log2fuel 2500 n

/-- The rational value 2 ^ e for a signed exponent. -/
def pow2 (e : Int) : ℚ :=
  if 0 ≤ e then ((2 ^ e.toNat : Nat) : ℚ) else 1 / ((2 ^ (-e).toNat : Nat) : ℚ)

/-- Floor of a rational. -/
def ratFloor (q : ℚ) : Int := ⌊q⌋

/-- The binary exponent of a positive rational q, the e with
pow2 e ≤ q < pow2 (e + 1): scale q up by 2 ^ 1100 so that its floor
carries the leading bit, and read the exponent off that integer.  Exact
for every q with an exponent between -1000 and 1000, which covers all
values of this pipeline. -/
def ratExp2 (q : ℚ) : Int := (natLog2 (ratFloor (q * pow2 1100)).toNat : Int) - 1100

/-- Round a non-negative rational to the nearest integer, ties to even. -/
def roundNearestEven (q : ℚ) : Int :=
  if q - (ratFloor q : ℚ) < 1 / 2 then ratFloor q
  else if (1 : ℚ) / 2 < q - (ratFloor q : ℚ) then ratFloor q + 1
  else if ratFloor q % 2 = 0 then ratFloor q else ratFloor q + 1

/-- Round a positive rational to the binary32 grid: scale into the
24-bit mantissa range, round to nearest with ties to even, scale back. -/
def flPos (q : ℚ) : ℚ :=
  let e := ratExp2 q
  ((roundNearestEven (q * pow2 (23 - e)) : Int) : ℚ) * pow2 (e - 23)

/-- Round a rational to the nearest binary32 value (round to nearest,
ties to even; normal range only). -/
def fl (q : ℚ) : ℚ :=
  if q = 0 then 0
  else if q < 0 then - flPos (-q)
  else flPos q

/-- An f32 addition: exact sum, then rounding. -/
def fadd (a b : ℚ) : ℚ := fl (a + b)

/-- An f32 subtraction: exact difference, then rounding. -/
def fsub (a b : ℚ) : ℚ := fl (a - b)

/-- An f32 multiplication: exact product, then rounding. -/
def fmul (a b : ℚ) : ℚ := fl (a * b)

/-- An f32 division: exact quotient, then rounding, with a zero divisor
marked `none` (the 0/0 = NaN case; a nonzero numerator over zero cannot
arise in `a_over_b_colour`). -/
def f32_div (a b : ℚ) : Option ℚ := if b = 0 then none else some (fl (a / b))

/-- Fuel-bounded integer square root, one result bit per unit of fuel. -/
def isqrtAux (n : Nat) : Nat → Nat → Nat
  | 0, acc => acc
  | bit + 1, acc =>
    if (acc + 2 ^ bit) * (acc + 2 ^ bit) ≤ n then isqrtAux n bit (acc + 2 ^ bit)
    else isqrtAux n bit acc

/-- Integer square root (floor) for the magnitudes this development
meets: 64 bits of fuel cover every number below 2 ^ 128. -/
def intSqrt (n : Nat) : Nat := isqrtAux n 64 0

/-- The correctly rounded f32 square root of a non-negative value: the
real square root, rounded to nearest with ties to even.  The rounding is
computed exactly: the mantissa candidate comes from the integer square
root of the scaled operand and the half-way comparison squares the
midpoint, all in rational arithmetic. -/
def fsqrt (q : ℚ) : ℚ :=
  if q ≤ 0 then 0
  else
    let e := ratExp2 q
    let k : Int := 23 - e / 2
    let bigQ := q * pow2 (2 * k)
    let n := intSqrt (ratFloor bigQ).toNat
    let m : Int :=
      if bigQ < ((n : ℚ) + 1 / 2) ^ 2 then (n : Int)
      else if ((n : ℚ) + 1 / 2) ^ 2 < bigQ then (n : Int) + 1
      else if (n : Int) % 2 = 0 then (n : Int) else (n : Int) + 1
    (m : ℚ) * pow2 (-k)

/-- The Rust saturating cast of a non-NaN f32 value to u8: truncate
toward zero and clamp into 0..255 (negative values cannot arise here). -/
def byte_of_f32 (q : ℚ) : Byte := ⟨min (ratFloor q).toNat 255, by omega⟩

/-- render.rs closure `linear`:
`((c as usize).pow(2)) as f32 / ((255 * 255) as f32)`.  The squared byte
and the constant 65025 are below 2 ^ 24 and hence exact in f32, so only
the division rounds. -/
def linearise (c : Byte) : ℚ := fl (((c.val : ℚ) ^ 2) / (255 * 255))

/-- The `linear_out` value of the render.rs closure `over_component`:
`(ca * aa + cb * ab * (1. - aa)) / a_out` with
`a_out = aa + ab * (1. - aa)`, all channels linearised first and every
f32 operation rounded; `none` when the division hits a zero denominator
(NaN). -/
def over_component_frac (ca aa cb ab : Byte) : Option ℚ :=
  let la := linearise ca
  let laa := linearise aa
  let lb := linearise cb
  let lab := linearise ab
  f32_div
    (fadd (fmul la laa) (fmul (fmul lb lab) (fsub 1 laa)))
    (fadd laa (fmul lab (fsub 1 laa)))

/-- render.rs closure `over_component`: re-encode `linear_out` with
`(linear_out * 255. * 255.).sqrt() as u8`; a NaN `linear_out` casts
to 0. -/
def over_component (ca aa cb ab : Byte) : Byte :=
  match over_component_frac ca aa cb ab with
  | none => 0
  | some linear_out => byte_of_f32 (fsqrt (fmul (fmul linear_out 255) 255))

/-- render.rs closure `over_alpha`: `a_out = aa + ab * (1. - aa)` on the
linearised alphas, re-encoded as `(a_out * 255. * 255.).sqrt() as u8`. -/
def over_alpha (aa ab : Byte) : Byte :=
  byte_of_f32 (fsqrt (fmul (fmul
    (fadd (linearise aa) (fmul (linearise ab) (fsub 1 (linearise aa)))) 255) 255))

/-- render.rs `a_over_b_colour`: per-channel over-compositing of `colour`
on top of `below_colour`. -/
def a_over_b_colour (colour : Rgba) (below_colour : Rgba) : Rgba :=
  ⟨over_component colour.r colour.a below_colour.r below_colour.a,
   over_component colour.g colour.a below_colour.g below_colour.a,
   over_component colour.b colour.a below_colour.b below_colour.a,
   over_alpha colour.a below_colour.a⟩

/-- The f32 linearise/re-encode round trip a fully opaque top channel
undergoes: compositing with top alpha 255 ignores the bottom colour and
sends each RGB channel through this function, which fixes 0 and 255 but
is not the identity on every byte (it sends 1 to 0). -/
def opaque_reencode (c : Byte) : Byte := over_component c 255 0 0

theorem pow2_eq_zpow (e : Int) : pow2 e = (2 : ℚ) ^ e := by
  rw [pow2]
  split
  · rename_i h
    push_cast
    rw [← zpow_natCast]
    congr 1
    omega
  · rename_i h
    push_cast
    rw [← zpow_natCast, one_div, ← zpow_neg]
    congr 1
    omega

theorem pow2_pos (e : Int) : 0 < pow2 e := by
  rw [pow2_eq_zpow]
  positivity

/-- Correctness of the fuel-bounded logarithm on its fuel range. -/
theorem log2fuel_eq : ∀ (fuel n e : Nat), 2 ^ e ≤ n → n < 2 ^ (e + 1) → n < 2 ^ fuel →
    log2fuel fuel n = e := by
  intro fuel
  induction fuel with
  | zero =>
    intro n e h1 h2 h3
    have : 1 ≤ 2 ^ e := Nat.one_le_two_pow
    omega
  | succ f ih =>
    intro n e h1 h2 h3
    rw [log2fuel]
    cases e with
    | zero =>
      have hp0 : (2 : Nat) ^ 0 = 1 := pow_zero 2
      have hp01 : (2 : Nat) ^ (0 + 1) = 2 := by norm_num
      rw [if_neg (by omega)]
    | succ e2 =>
      have hp1 : 2 ^ (e2 + 1) = 2 ^ e2 * 2 := by rw [pow_succ]
      have hp2 : 2 ^ (e2 + 1 + 1) = 2 ^ e2 * 2 * 2 := by rw [pow_succ, pow_succ]
      have hpf : 2 ^ (f + 1) = 2 ^ f * 2 := by rw [pow_succ]
      have h2n : 2 ≤ n := by
        have : 1 ≤ 2 ^ e2 := Nat.one_le_two_pow
        omega
      rw [if_pos h2n]
      have := ih (n / 2) e2 (by omega) (by omega) (by omega)
      omega

theorem natLog2_eq (n e : Nat) (h1 : 2 ^ e ≤ n) (h2 : n < 2 ^ (e + 1)) (h3 : n < 2 ^ 2500) :
    natLog2 n = e :=
  log2fuel_eq 2500 n e h1 h2 h3

/-- The binary exponent function is correct on the exponent range of
this pipeline. -/
theorem ratExp2_eq (q : ℚ) (e : Int) (h1 : pow2 e ≤ q) (h2 : q < pow2 (e + 1))
    (he1 : -1000 ≤ e) (he2 : e ≤ 1000) : ratExp2 q = e := by
  set L : Nat := (e + 1100).toNat with hL
  have hLe : (L : Int) = e + 1100 := by omega
  have hlo : ((2 ^ L : Nat) : ℚ) ≤ q * pow2 1100 := by
    have hstep := mul_le_mul_of_nonneg_right h1 (le_of_lt (pow2_pos 1100))
    calc ((2 ^ L : Nat) : ℚ) = (2 : ℚ) ^ (L : Int) := by push_cast; rw [← zpow_natCast]
    _ = (2 : ℚ) ^ (e + 1100) := by rw [hLe]
    _ = (2 : ℚ) ^ e * (2 : ℚ) ^ (1100 : Int) := by rw [zpow_add₀ (by norm_num)]
    _ = pow2 e * pow2 1100 := by rw [pow2_eq_zpow, pow2_eq_zpow]
    _ ≤ q * pow2 1100 := hstep
  have hhi : q * pow2 1100 < ((2 ^ (L + 1) : Nat) : ℚ) := by
    have hstep := mul_lt_mul_of_pos_right h2 (pow2_pos 1100)
    calc q * pow2 1100 < pow2 (e + 1) * pow2 1100 := hstep
    _ = (2 : ℚ) ^ (e + 1) * (2 : ℚ) ^ (1100 : Int) := by rw [pow2_eq_zpow, pow2_eq_zpow]
    _ = (2 : ℚ) ^ (e + 1 + 1100) := by rw [← zpow_add₀ (by norm_num)]
    _ = (2 : ℚ) ^ ((L + 1 : Nat) : Int) := by
        have hexp : (e + 1 + 1100 : Int) = ((L + 1 : Nat) : Int) := by push_cast; omega
        rw [hexp]
    _ = ((2 ^ (L + 1) : Nat) : ℚ) := by rw [zpow_natCast]; push_cast; ring
  have hslo : ((2 ^ L : Nat) : Int) ≤ ratFloor (q * pow2 1100) := by
    rw [ratFloor]
    exact Int.le_floor.mpr (by exact_mod_cast hlo)
  have hshi : ratFloor (q * pow2 1100) < ((2 ^ (L + 1) : Nat) : Int) := by
    rw [ratFloor]
    have hfle : (⌊q * pow2 1100⌋ : ℚ) ≤ q * pow2 1100 := Int.floor_le _
    have hcast : (⌊q * pow2 1100⌋ : ℚ) < ((2 ^ (L + 1) : Nat) : ℚ) := lt_of_le_of_lt hfle hhi
    exact_mod_cast hcast
  have hnat1 : 2 ^ L ≤ (ratFloor (q * pow2 1100)).toNat := by omega
  have hnat2 : (ratFloor (q * pow2 1100)).toNat < 2 ^ (L + 1) := by omega
  have hnat3 : (ratFloor (q * pow2 1100)).toNat < 2 ^ 2500 := by
    have hmono : 2 ^ (L + 1) ≤ 2 ^ 2500 :=
      Nat.pow_le_pow_right (by norm_num) (by omega)
    omega
  rw [ratExp2, natLog2_eq _ L hnat1 hnat2 hnat3]
  omega

/-- Mechanical evaluation rule for `fl` at a positive value: once the
binary exponent and the rounded mantissa are supplied and checked, the
rounded value is the mantissa scaled back. -/
theorem fl_eval (q : ℚ) (e m : Int) (h0 : 0 < q) (h1 : pow2 e ≤ q) (h2 : q < pow2 (e + 1))
    (he1 : -1000 ≤ e) (he2 : e ≤ 1000)
    (hm : roundNearestEven (q * pow2 (23 - e)) = m) :
    fl q = (m : ℚ) * pow2 (e - 23) := by
  rw [fl, if_neg (ne_of_gt h0), if_neg (by intro h; exact absurd h (not_lt_of_gt h0)), flPos,
    ratExp2_eq q e h1 h2 he1 he2, hm]

/-- Correctness of the fuel-bounded integer square root loop. -/
theorem isqrtAux_spec (n : Nat) : ∀ (bit acc : Nat), acc * acc ≤ n →
    n < (acc + 2 ^ bit) * (acc + 2 ^ bit) →
    isqrtAux n bit acc * isqrtAux n bit acc ≤ n
      ∧ n < (isqrtAux n bit acc + 1) * (isqrtAux n bit acc + 1) := by
  intro bit
  induction bit with
  | zero =>
    intro acc h1 h2
    rw [isqrtAux]
    refine ⟨h1, ?_⟩
    simpa using h2
  | succ b ih =>
    intro acc h1 h2
    have hps : acc + 2 ^ (b + 1) = acc + 2 ^ b + 2 ^ b := by
      have : (2 : Nat) ^ (b + 1) = 2 ^ b * 2 := pow_succ 2 b
      omega
    rw [hps] at h2
    rw [isqrtAux]
    by_cases hc : (acc + 2 ^ b) * (acc + 2 ^ b) ≤ n
    · rw [if_pos hc]
      exact ih (acc + 2 ^ b) hc h2
    · rw [if_neg hc]
      exact ih acc h1 (by omega)

theorem intSqrt_eq (n r : Nat) (h1 : r * r ≤ n) (h2 : n < (r + 1) * (r + 1))
    (h3 : n < 2 ^ 128) : intSqrt n = r := by
  have hinit : n < (0 + 2 ^ 64) * (0 + 2 ^ 64) := by
    have : (2 : Nat) ^ 64 * 2 ^ 64 = 2 ^ 128 := by rw [← pow_add]
    omega
  have hs := isqrtAux_spec n 64 0 (by omega) hinit
  rw [intSqrt]
  rcases Nat.lt_trichotomy (isqrtAux n 64 0) r with h | h | h
  · exfalso
    have hle : isqrtAux n 64 0 + 1 ≤ r := h
    have := Nat.mul_le_mul hle hle
    omega
  · exact h
  · exfalso
    have hle : r + 1 ≤ isqrtAux n 64 0 := h
    have := Nat.mul_le_mul hle hle
    omega

theorem fl_zero : fl 0 = 0 := by
  simp [fl]

theorem fmul_zero_right (a : ℚ) : fmul a 0 = 0 := by
  simp [fmul, fl]

theorem fmul_zero_left (a : ℚ) : fmul 0 a = 0 := by
  simp [fmul, fl]

theorem fl_one : fl 1 = 1 := by
  have h := fl_eval 1 0 8388608 (by norm_num) (by norm_num [pow2_eq_zpow])
    (by norm_num [pow2_eq_zpow]) (by norm_num) (by norm_num)
    (by norm_num [roundNearestEven, ratFloor, pow2_eq_zpow])
  rw [h]
  norm_num [pow2_eq_zpow]

theorem fl_255 : fl 255 = 255 := by
  have h := fl_eval 255 7 16711680 (by norm_num) (by norm_num [pow2_eq_zpow])
    (by norm_num [pow2_eq_zpow]) (by norm_num) (by norm_num)
    (by norm_num [roundNearestEven, ratFloor, pow2_eq_zpow])
  rw [h]
  norm_num [pow2_eq_zpow]

theorem fl_65025 : fl 65025 = 65025 := by
  have h := fl_eval 65025 15 16646400 (by norm_num) (by norm_num [pow2_eq_zpow])
    (by norm_num [pow2_eq_zpow]) (by norm_num) (by norm_num)
    (by norm_num [roundNearestEven, ratFloor, pow2_eq_zpow])
  rw [h]
  norm_num [pow2_eq_zpow]

/-- The f32 value of 1/65025: the rounding of the only inexact division
in `linear` applied to the channel byte 1. -/
theorem fl_inv_sq255 : fl (1 / 65025) = 4227265 / 274877906944 := by
  have h := fl_eval (1 / 65025) (-16) 8454530 (by norm_num) (by norm_num [pow2_eq_zpow])
    (by norm_num [pow2_eq_zpow]) (by norm_num) (by norm_num)
    (by norm_num [roundNearestEven, ratFloor, pow2_eq_zpow])
  rw [h]
  norm_num [pow2_eq_zpow]

theorem fl_fix_lin1 : fl (4227265 / 274877906944) = 4227265 / 274877906944 := by
  have h := fl_eval (4227265 / 274877906944) (-16) 8454530 (by norm_num)
    (by norm_num [pow2_eq_zpow]) (by norm_num [pow2_eq_zpow]) (by norm_num) (by norm_num)
    (by norm_num [roundNearestEven, ratFloor, pow2_eq_zpow])
  rw [h]
  norm_num [pow2_eq_zpow]

theorem fl_fix_prod : fl (4260485 / 18014398509481984) = 4260485 / 18014398509481984 := by
  have h := fl_eval (4260485 / 18014398509481984) (-32) 8520970 (by norm_num)
    (by norm_num [pow2_eq_zpow]) (by norm_num [pow2_eq_zpow]) (by norm_num) (by norm_num)
    (by norm_num [roundNearestEven, ratFloor, pow2_eq_zpow])
  rw [h]
  norm_num [pow2_eq_zpow]

theorem fl_lin1_mul255 : fl (4227265 / 274877906944 * 255) = 65793 / 16777216 := by
  have h := fl_eval (4227265 / 274877906944 * 255) (-8) 8421504 (by norm_num)
    (by norm_num [pow2_eq_zpow]) (by norm_num [pow2_eq_zpow]) (by norm_num) (by norm_num)
    (by norm_num [roundNearestEven, ratFloor, pow2_eq_zpow])
  rw [h]
  norm_num [pow2_eq_zpow]

theorem fl_s1_mul255 : fl (65793 / 16777216 * 255) = 16777215 / 16777216 := by
  have h := fl_eval (65793 / 16777216 * 255) (-1) 16777215 (by norm_num)
    (by norm_num [pow2_eq_zpow]) (by norm_num [pow2_eq_zpow]) (by norm_num) (by norm_num)
    (by norm_num [roundNearestEven, ratFloor, pow2_eq_zpow])
  rw [h]
  norm_num [pow2_eq_zpow]

theorem fl_lin1_sq :
    fl (4227265 / 274877906944 * (4227265 / 274877906944)) = 4260485 / 18014398509481984 := by
  have h := fl_eval (4227265 / 274877906944 * (4227265 / 274877906944)) (-32) 8520970
    (by norm_num) (by norm_num [pow2_eq_zpow]) (by norm_num [pow2_eq_zpow]) (by norm_num)
    (by norm_num) (by norm_num [roundNearestEven, ratFloor, pow2_eq_zpow])
  rw [h]
  norm_num [pow2_eq_zpow]

theorem fl_num_div_lin1 :
    fl (4260485 / 18014398509481984 / (4227265 / 274877906944)) = 4227265 / 274877906944 := by
  have h := fl_eval (4260485 / 18014398509481984 / (4227265 / 274877906944)) (-16) 8454530
    (by norm_num) (by norm_num [pow2_eq_zpow]) (by norm_num [pow2_eq_zpow]) (by norm_num)
    (by norm_num) (by norm_num [roundNearestEven, ratFloor, pow2_eq_zpow])
  rw [h]
  norm_num [pow2_eq_zpow]

theorem fsqrt_zero : fsqrt 0 = 0 := by
  simp [fsqrt]

theorem fsqrt_65025 : fsqrt 65025 = 255 := by
  simp only [fsqrt]
  rw [if_neg (by norm_num)]
  rw [ratExp2_eq 65025 15 (by norm_num [pow2_eq_zpow]) (by norm_num [pow2_eq_zpow])
    (by norm_num) (by norm_num)]
  norm_num [ratFloor, pow2_eq_zpow]
  rw [show ((279280248422400 : Int).toNat) = 279280248422400 from rfl]
  rw [intSqrt_eq 279280248422400 16711680 (by norm_num) (by norm_num) (by norm_num)]
  norm_num

/-- The f32 square root of 1 - 2 ^ (-24) is 1 - 2 ^ (-24) itself: the
real root lies below the midpoint toward 1, so rounding to nearest does
not reach 1, and the following byte cast truncates to 0. -/
theorem fsqrt_nearone : fsqrt (16777215 / 16777216) = 16777215 / 16777216 := by
  simp only [fsqrt]
  rw [if_neg (by norm_num)]
  rw [ratExp2_eq (16777215 / 16777216) (-1) (by norm_num [pow2_eq_zpow])
    (by norm_num [pow2_eq_zpow]) (by norm_num) (by norm_num)]
  norm_num [ratFloor, pow2_eq_zpow]
  rw [show ((281474959933440 : Int).toNat) = 281474959933440 from rfl]
  rw [intSqrt_eq 281474959933440 16777215 (by norm_num) (by norm_num) (by norm_num)]
  norm_num

theorem byte_of_f32_zero : byte_of_f32 0 = 0 := by
  apply Fin.ext
  norm_num [byte_of_f32, ratFloor]

theorem byte_of_f32_255 : byte_of_f32 255 = 255 := by
  apply Fin.ext
  show min (ratFloor 255).toNat 255 = ((255 : Byte)).val
  rw [show ratFloor 255 = 255 from by norm_num [ratFloor]]
  rfl

theorem byte_of_f32_nearone : byte_of_f32 (16777215 / 16777216) = 0 := by
  apply Fin.ext
  show min (ratFloor (16777215 / 16777216 : ℚ)).toNat 255 = ((0 : Byte)).val
  rw [show ratFloor (16777215 / 16777216 : ℚ) = 0 from by norm_num [ratFloor]]
  rfl

theorem linearise_zero : linearise 0 = 0 := by
  have hv : ((0 : Byte)).val = 0 := rfl
  rw [linearise, hv, show (((0 : Nat) : ℚ) ^ 2) / (255 * 255) = 0 from by norm_num, fl_zero]

theorem linearise_full : linearise 255 = 1 := by
  have hv : ((255 : Byte)).val = 255 := rfl
  rw [linearise, hv, show (((255 : Nat) : ℚ) ^ 2) / (255 * 255) = 1 from by norm_num, fl_one]

/-- The f32 linearisation of the channel byte 1. -/
theorem linearise_one : linearise 1 = 4227265 / 274877906944 := by
  have hv : ((1 : Byte)).val = 1 := rfl
  rw [linearise, hv, show (((1 : Nat) : ℚ) ^ 2) / (255 * 255) = 1 / 65025 from by norm_num,
    fl_inv_sq255]

theorem fsub_one_one : fsub 1 1 = 0 := by
  rw [fsub, show (1 : ℚ) - 1 = 0 from by norm_num, fl_zero]

theorem fsub_one_zero : fsub 1 0 = 1 := by
  rw [fsub, show (1 : ℚ) - 0 = 1 from by norm_num, fl_one]

theorem fadd_one_zero : fadd 1 0 = 1 := by
  rw [fadd, show (1 : ℚ) + 0 = 1 from by norm_num, fl_one]

theorem fadd_zero_zero : fadd 0 0 = 0 := by
  rw [fadd, show (0 : ℚ) + 0 = 0 from by norm_num, fl_zero]

theorem fmul_one_255 : fmul 1 255 = 255 := by
  rw [fmul, show (1 : ℚ) * 255 = 255 from by norm_num, fl_255]

theorem fmul_255_255 : fmul 255 255 = 65025 := by
  rw [fmul, show (255 : ℚ) * 255 = 65025 from by norm_num, fl_65025]

/-- With both alpha bytes 0 the combined alpha is exactly 0 even in f32
(every operation acts on the exact values 0 and 1), and the division in
`over_component` is executed with that zero denominator, yielding the
NaN marker. -/
theorem over_component_frac_both_zero (ca cb : Byte) :
    over_component_frac ca 0 cb 0 = none := by
  simp only [over_component_frac, linearise_zero, fmul_zero_left, fadd_zero_zero]
  rw [f32_div, if_pos rfl]

theorem over_component_both_zero (ca cb : Byte) : over_component ca 0 cb 0 = 0 := by
  rw [over_component, over_component_frac_both_zero]

theorem over_alpha_both_zero : over_alpha 0 0 = 0 := by
  rw [over_alpha, linearise_zero, fmul_zero_left, fadd_zero_zero, fmul_zero_left,
    fmul_zero_left, fsqrt_zero, byte_of_f32_zero]

/-- With top alpha 255 the bottom colour is multiplied away exactly:
1 - linearise 255 is exactly 0 in f32, so each channel reduces to the
round trip of the top channel alone. -/
theorem over_component_top_full (ca cb ab : Byte) :
    over_component ca 255 cb ab = opaque_reencode ca := by
  have hfrac : over_component_frac ca 255 cb ab = over_component_frac ca 255 0 0 := by
    simp only [over_component_frac, linearise_full, linearise_zero, fsub_one_one,
      fmul_zero_right, fmul_zero_left]
  rw [opaque_reencode, over_component, over_component, hfrac]

/-- With top alpha 255 the combined alpha is exactly 1 and re-encodes to
exactly 255 in f32. -/
theorem over_alpha_top_full (ab : Byte) : over_alpha 255 ab = 255 := by
  rw [over_alpha, linearise_full, fsub_one_one, fmul_zero_right, fadd_one_zero,
    fmul_one_255, fmul_255_255, fsqrt_65025, byte_of_f32_255]

theorem over_component_of_frac (ca aa cb ab : Byte) (v : ℚ)
    (h : over_component_frac ca aa cb ab = some v) :
    over_component ca aa cb ab = byte_of_f32 (fsqrt (fmul (fmul v 255) 255)) := by
  simp only [over_component, h]

theorem opaque_reencode_zero : opaque_reencode 0 = 0 := by
  have hfrac : over_component_frac 0 255 0 0 = some 0 := by
    simp only [over_component_frac, linearise_full, linearise_zero, fsub_one_one,
      fmul_zero_right, fmul_zero_left, fadd_zero_zero, fadd_one_zero]
    rw [f32_div, if_neg one_ne_zero, show (0 : ℚ) / 1 = 0 from by norm_num, fl_zero]
  rw [opaque_reencode, over_component_of_frac _ _ _ _ 0 hfrac, fmul_zero_left,
    fmul_zero_left, fsqrt_zero, byte_of_f32_zero]

theorem opaque_reencode_full : opaque_reencode 255 = 255 := by
  have hmul : fmul 1 1 = 1 := by
    rw [fmul, show (1 : ℚ) * 1 = 1 from by norm_num, fl_one]
  have hfrac : over_component_frac 255 255 0 0 = some 1 := by
    simp only [over_component_frac, linearise_full, linearise_zero, fsub_one_one,
      fmul_zero_right, fmul_zero_left, hmul, fadd_one_zero]
    rw [f32_div, if_neg one_ne_zero, show (1 : ℚ) / 1 = 1 from by norm_num, fl_one]
  rw [opaque_reencode, over_component_of_frac _ _ _ _ 1 hfrac, fmul_one_255, fmul_255_255,
    fsqrt_65025, byte_of_f32_255]

/-- The round trip drops the channel byte 1 to 0: fl(1/65025) expanded
back by the two multiplications by 255 lands at 1 - 2 ^ (-24), whose
square root still truncates to 0. -/
theorem opaque_reencode_one : opaque_reencode 1 = 0 := by
  have hone : fmul (4227265 / 274877906944) 1 = 4227265 / 274877906944 := by
    rw [fmul, mul_one, fl_fix_lin1]
  have hz : fadd (4227265 / 274877906944) 0 = 4227265 / 274877906944 := by
    rw [fadd, add_zero, fl_fix_lin1]
  have hfrac : over_component_frac 1 255 0 0 = some (4227265 / 274877906944) := by
    simp only [over_component_frac, linearise_full, linearise_zero, linearise_one,
      fsub_one_one, fmul_zero_right, fmul_zero_left, hone, fadd_one_zero, hz]
    rw [f32_div, if_neg one_ne_zero, div_one, fl_fix_lin1]
  rw [opaque_reencode, over_component_of_frac _ _ _ _ _ hfrac]
  rw [show fmul (4227265 / 274877906944) 255 = 65793 / 16777216 from by
    rw [fmul, fl_lin1_mul255]]
  rw [show fmul (65793 / 16777216) 255 = 16777215 / 16777216 from by
    rw [fmul, fl_s1_mul255]]
  rw [fsqrt_nearone, byte_of_f32_nearone]

/-- A fully transparent top over a bottom with channel and alpha byte 1:
the rounded compositing recovers the linearised bottom exactly, but the
re-encode truncates it to 0. -/
theorem over_component_transparent_one : over_component 0 0 1 1 = 0 := by
  have hLL : fmul (4227265 / 274877906944) (4227265 / 274877906944)
      = 4260485 / 18014398509481984 := by
    rw [fmul, fl_lin1_sq]
  have hN1 : fmul (4260485 / 18014398509481984) 1 = 4260485 / 18014398509481984 := by
    rw [fmul, mul_one, fl_fix_prod]
  have hL1 : fmul (4227265 / 274877906944) 1 = 4227265 / 274877906944 := by
    rw [fmul, mul_one, fl_fix_lin1]
  have hz1 : fadd 0 (4260485 / 18014398509481984) = 4260485 / 18014398509481984 := by
    rw [fadd, zero_add, fl_fix_prod]
  have hz2 : fadd 0 (4227265 / 274877906944) = 4227265 / 274877906944 := by
    rw [fadd, zero_add, fl_fix_lin1]
  have hfrac : over_component_frac 0 0 1 1 = some (4227265 / 274877906944) := by
    simp only [over_component_frac, linearise_zero, linearise_one, fsub_one_zero,
      fmul_zero_left, hLL, hN1, hL1, hz1, hz2]
    rw [f32_div, if_neg (by norm_num), fl_num_div_lin1]
  rw [over_component_of_frac _ _ _ _ _ hfrac]
  rw [show fmul (4227265 / 274877906944) 255 = 65793 / 16777216 from by
    rw [fmul, fl_lin1_mul255]]
  rw [show fmul (65793 / 16777216) 255 = 16777215 / 16777216 from by
    rw [fmul, fl_s1_mul255]]
  rw [fsqrt_nearone, byte_of_f32_nearone]

/-- A fully transparent top over alpha byte 1: the combined alpha is the
linearisation of 1, which the re-encode truncates to 0. -/
theorem over_alpha_zero_one : over_alpha 0 1 = 0 := by
  have hL1 : fmul (4227265 / 274877906944) 1 = 4227265 / 274877906944 := by
    rw [fmul, mul_one, fl_fix_lin1]
  have hz2 : fadd 0 (4227265 / 274877906944) = 4227265 / 274877906944 := by
    rw [fadd, zero_add, fl_fix_lin1]
  rw [over_alpha, linearise_zero, linearise_one, fsub_one_zero, hL1, hz2]
  rw [show fmul (4227265 / 274877906944) 255 = 65793 / 16777216 from by
    rw [fmul, fl_lin1_mul255]]
  rw [show fmul (65793 / 16777216) 255 = 16777215 / 16777216 from by
    rw [fmul, fl_s1_mul255]]
  rw [fsqrt_nearone, byte_of_f32_nearone]

/-- C5 (amended): neither compositing identity is exact in the f32
program.  When the top alpha byte is 255 the bottom colour is ignored:
the result has alpha byte 255 and each RGB channel is the f32
linearise/re-encode round trip of the corresponding top channel — a
round trip that fixes 0 and 255 but is not the identity on every byte
(it sends 1 to 0), so the top colour is returned unchanged only up to
that per-channel round trip.  When the top alpha byte is 0 and the
bottom alpha byte is 0 as well, the unguarded 0/0 division makes the
result [0,0,0,0] rather than the bottom colour; for nonzero bottom alpha
the bottom is likewise recovered only up to f32 rounding. -/
theorem a_over_b_colour_ends (top bottom other : Rgba) :
    (top.a = 255 → a_over_b_colour top bottom
        = ⟨opaque_reencode top.r, opaque_reencode top.g, opaque_reencode top.b, 255⟩)
    ∧ (top.a = 255 → a_over_b_colour top bottom = a_over_b_colour top other)
    ∧ opaque_reencode 0 = 0 ∧ opaque_reencode 255 = 255 ∧ opaque_reencode 1 = 0
    ∧ (top.a = 0 → bottom.a = 0 → a_over_b_colour top bottom = ⟨0, 0, 0, 0⟩) := by
  obtain ⟨tr, tg, tb, ta⟩ := top
  obtain ⟨br, bg, bb, ba⟩ := bottom
  obtain ⟨pr, pg, pb, pa⟩ := other
  refine ⟨?_, ?_, opaque_reencode_zero, opaque_reencode_full, opaque_reencode_one, ?_⟩
  · intro h255
    simp only at h255
    subst h255
    simp only [a_over_b_colour]
    rw [over_component_top_full, over_component_top_full, over_component_top_full,
      over_alpha_top_full]
  · intro h255
    simp only at h255
    subst h255
    simp only [a_over_b_colour]
    rw [over_component_top_full, over_component_top_full, over_component_top_full,
      over_alpha_top_full, over_component_top_full, over_component_top_full,
      over_component_top_full, over_alpha_top_full]
  · intro h0 hb0
    simp only at h0 hb0
    subst h0
    subst hb0
    simp only [a_over_b_colour]
    rw [over_component_both_zero, over_component_both_zero, over_component_both_zero,
      over_alpha_both_zero]

/-- C5 counterexample: both identity laws of the original claim fail on
the program.  A fully transparent top over [255,255,255,0] gives
[0,0,0,0] (the unguarded 0/0), a fully transparent top over the bottom
[1,1,1,1] with nonzero alpha also gives [0,0,0,0] (f32 rounding truncates
the re-encoded channel and alpha bytes 1 to 0), and the fully opaque top
[1,1,1,255] comes back as [0,0,0,255], not unchanged. -/
theorem a_over_b_colour_identity_counter :
    (⟨0, 0, 0, 0⟩ : Rgba).a = 0
    ∧ a_over_b_colour ⟨0, 0, 0, 0⟩ ⟨255, 255, 255, 0⟩ = ⟨0, 0, 0, 0⟩
    ∧ a_over_b_colour ⟨0, 0, 0, 0⟩ ⟨255, 255, 255, 0⟩ ≠ ⟨255, 255, 255, 0⟩
    ∧ a_over_b_colour ⟨0, 0, 0, 0⟩ ⟨1, 1, 1, 1⟩ = ⟨0, 0, 0, 0⟩
    ∧ a_over_b_colour ⟨0, 0, 0, 0⟩ ⟨1, 1, 1, 1⟩ ≠ ⟨1, 1, 1, 1⟩
    ∧ (⟨1, 1, 1, 255⟩ : Rgba).a = 255
    ∧ a_over_b_colour ⟨1, 1, 1, 255⟩ ⟨0, 0, 0, 0⟩ = ⟨0, 0, 0, 255⟩
    ∧ a_over_b_colour ⟨1, 1, 1, 255⟩ ⟨0, 0, 0, 0⟩ ≠ ⟨1, 1, 1, 255⟩ := by
  have h1 : a_over_b_colour ⟨0, 0, 0, 0⟩ ⟨255, 255, 255, 0⟩ = ⟨0, 0, 0, 0⟩ := by
    simp only [a_over_b_colour]
    rw [over_component_both_zero, over_alpha_both_zero]
  have h2 : a_over_b_colour ⟨0, 0, 0, 0⟩ ⟨1, 1, 1, 1⟩ = ⟨0, 0, 0, 0⟩ := by
    simp only [a_over_b_colour]
    rw [over_component_transparent_one, over_alpha_zero_one]
  have h3 : a_over_b_colour ⟨1, 1, 1, 255⟩ ⟨0, 0, 0, 0⟩ = ⟨0, 0, 0, 255⟩ := by
    simp only [a_over_b_colour]
    rw [over_component_top_full, over_alpha_top_full, opaque_reencode_one]
  refine ⟨rfl, h1, ?_, h2, ?_, rfl, h3, ?_⟩
  · rw [h1]; decide
  · rw [h2]; decide
  · rw [h3]; decide

/-- C5 witness: instantiation of the amended claim at concrete colours. -/
theorem a_over_b_colour_ends_witness :
    a_over_b_colour ⟨1, 0, 255, 255⟩ ⟨6, 7, 8, 9⟩
      = ⟨opaque_reencode 1, opaque_reencode 0, opaque_reencode 255, 255⟩
    ∧ a_over_b_colour ⟨1, 0, 255, 255⟩ ⟨6, 7, 8, 9⟩
      = a_over_b_colour ⟨1, 0, 255, 255⟩ ⟨10, 20, 30, 40⟩
    ∧ opaque_reencode 1 = 0
    ∧ a_over_b_colour ⟨9, 8, 7, 0⟩ ⟨6, 5, 4, 0⟩ = ⟨0, 0, 0, 0⟩ :=
  ⟨(a_over_b_colour_ends ⟨1, 0, 255, 255⟩ ⟨6, 7, 8, 9⟩ ⟨10, 20, 30, 40⟩).1 rfl,
   (a_over_b_colour_ends ⟨1, 0, 255, 255⟩ ⟨6, 7, 8, 9⟩ ⟨10, 20, 30, 40⟩).2.1 rfl,
   (a_over_b_colour_ends ⟨1, 0, 255, 255⟩ ⟨6, 7, 8, 9⟩ ⟨10, 20, 30, 40⟩).2.2.2.2.1,
   (a_over_b_colour_ends ⟨9, 8, 7, 0⟩ ⟨6, 5, 4, 0⟩ ⟨10, 20, 30, 40⟩).2.2.2.2.2 rfl rfl⟩

/-- C6 (amended): the zero-combined-alpha case is not guarded: when both
alpha bytes are 0 the division by the combined alpha is executed with a
zero denominator and produces NaN (the none marker); the Rust saturating
float-to-byte cast then maps NaN to 0, so compositing a fully transparent
colour over a fully transparent colour still yields the fully transparent
output [0,0,0,0]. -/
theorem a_over_b_colour_zero_alpha (ca cb : Byte) (top bottom : Rgba) :
    over_component_frac ca 0 cb 0 = none
    ∧ (top.a = 0 → bottom.a = 0 → a_over_b_colour top bottom = ⟨0, 0, 0, 0⟩) := by
  refine ⟨over_component_frac_both_zero ca cb, ?_⟩
  obtain ⟨tr, tg, tb, ta⟩ := top
  obtain ⟨br, bg, bb, ba⟩ := bottom
  intro h0 hb0
  simp only at h0 hb0
  subst h0
  subst hb0
  simp only [a_over_b_colour]
  rw [over_component_both_zero, over_component_both_zero,
    over_component_both_zero, over_alpha_both_zero]

/-- C6 counterexample: at two fully transparent colours the combined alpha
denominator is exactly 0 and the division is nevertheless executed,
producing the NaN marker; so the division is not guarded. -/
theorem over_component_unguarded_counter :
    (linearise 0 + linearise 0 * (1 - linearise 0) = 0)
    ∧ over_component_frac 0 0 0 0 = none := by
  constructor
  · rw [linearise_zero]; ring
  · exact over_component_frac_both_zero 0 0

/-- C6 witness: instantiation of the amended claim at concrete colours. -/
theorem a_over_b_colour_zero_alpha_witness :
    over_component_frac 3 0 6 0 = none
    ∧ a_over_b_colour ⟨3, 4, 5, 0⟩ ⟨6, 7, 8, 0⟩ = ⟨0, 0, 0, 0⟩ :=
  ⟨(a_over_b_colour_zero_alpha 3 6 ⟨3, 4, 5, 0⟩ ⟨6, 7, 8, 0⟩).1,
   (a_over_b_colour_zero_alpha 3 6 ⟨3, 4, 5, 0⟩ ⟨6, 7, 8, 0⟩).2 rfl rfl⟩

/-- Modelled from the spec: the Chunk capability of spec section 6, as
consumed by the renderer: per-coordinate block and biome lookup (absent
past the decoded range), a surface height query, and a vertical range.
The concrete implementations live outside the provided sources. -/
structure Chunk where
  blockAt : Nat → Int → Nat → Option Block
  biomeAt : Nat → Int → Nat → Option Biome
  surfaceHeight : Nat → Nat → Int
  yMin : Int
  yMax : Int

/-- The loop of render.rs `water_depth`, with the running `depth`
accumulator made explicit: while `y > y_min`, look the block at the
current `y` up; on an absent or non-watery block return the accumulated
depth, on a watery block increment it and step down one. -/
def water_depth_go (chunk : Chunk) (x z : Nat) (y_min : Int) (y : Int) (depth : Int) : Int :=
  if _h : y > y_min then
    match chunk.blockAt x y z with
    | none => depth
    | some block =>
      if is_watery block then water_depth_go chunk x z y_min (y - 1) (depth + 1)
      else depth
  else depth
termination_by (y - y_min).toNat
decreasing_by omega

/-- render.rs `water_depth`: the loop above started with `depth = 1` at
the given `y` (argument order as in the source). -/
def water_depth (x : Nat) (y : Int) (z : Nat) (chunk : Chunk) (y_min : Int) : Int :=
  water_depth_go chunk x z y_min y 1

/-- The number of consecutive watery blocks the `water_depth` loop
inspects: positions `y`, `y - 1`, ... strictly above `y_min`, while the
block is present and watery.  Note the run starts at `y` itself, the very
position whose block the caller already established to be watery. -/
def watery_run (chunk : Chunk) (x z : Nat) (y_min : Int) (y : Int) : Nat :=
  if _h : y > y_min then
    match chunk.blockAt x y z with
    | none => 0
    | some block =>
      if is_watery block then watery_run chunk x z y_min (y - 1) + 1
      else 0
  else 0
termination_by (y - y_min).toNat
decreasing_by omega

/-- The accumulator form of the water depth loop: the result is the
starting depth plus the count of watery positions the loop inspects. -/
theorem water_depth_go_eq (chunk : Chunk) (x z : Nat) (y_min : Int) (y : Int) (depth : Int) :
    water_depth_go chunk x z y_min y depth = depth + (watery_run chunk x z y_min y : Int) := by
  induction y, depth using water_depth_go.induct chunk x z y_min with
  | case1 y depth h hb =>
    rw [water_depth_go, watery_run]
    simp [dif_pos h, hb]
  | case2 y depth h block hb hw ih =>
    rw [water_depth_go, watery_run]
    simp only [dif_pos h, hb, if_pos hw]
    rw [ih]
    push_cast
    ring
  | case3 y depth h block hb hw =>
    rw [water_depth_go, watery_run]
    simp [dif_pos h, hb, hw]
  | case4 y depth h =>
    rw [water_depth_go, watery_run]
    simp [dif_neg h]

/-- C1 (amended): water_depth returns one more than the number of
consecutive present watery blocks at positions y, y-1, ... strictly above
y_min: the loop re-inspects the starting position, whose block the caller
already knows to be watery, so the starting block is counted twice
whenever y is strictly above y_min.  In particular a column of exactly 3
consecutive watery blocks over stone, all strictly above y_min, yields
depth 4, hence alpha 188 for the water layer. -/
theorem water_depth_spec (chunk : Chunk) (x z : Nat) (y : Int) (y_min : Int) :
    water_depth x y z chunk y_min = 1 + (watery_run chunk x z y_min y : Int) :=
  water_depth_go_eq chunk x z y_min y 1

/-- A concrete column for the water depth counterexample: water at
y = 4, 3, 2 and stone at y = 1, 0 in the column x = 0, z = 0. -/
def chunk_c1 : Chunk where
  blockAt := fun x y z =>
    if x = 0 ∧ z = 0 then
      if y = 4 ∨ y = 3 ∨ y = 2 then some ⟨"minecraft:water"⟩
      else if y = 1 ∨ y = 0 then some ⟨"minecraft:stone"⟩
      else none
    else none
  biomeAt := fun _ _ _ => none
  surfaceHeight := fun _ _ => 5
  yMin := 0
  yMax := 16

/-- C1 counterexample: in a column holding exactly 3 consecutive watery
blocks (y = 4, 3, 2) over opaque stone (y = 1), all strictly above
y_min = 0, water_depth started at the topmost water block returns 4, not
3, and the resulting water alpha is 188, not 186. -/
theorem water_depth_three_water_counter :
    chunk_c1.blockAt 0 4 0 = some ⟨"minecraft:water"⟩
    ∧ chunk_c1.blockAt 0 3 0 = some ⟨"minecraft:water"⟩
    ∧ chunk_c1.blockAt 0 2 0 = some ⟨"minecraft:water"⟩
    ∧ chunk_c1.blockAt 0 1 0 = some ⟨"minecraft:stone"⟩
    ∧ is_watery ⟨"minecraft:water"⟩ = true
    ∧ is_watery ⟨"minecraft:stone"⟩ = false
    ∧ water_depth 0 4 0 chunk_c1 0 = 4
    ∧ water_depth_to_alpha (water_depth 0 4 0 chunk_c1 0) = (188 : Byte)
    ∧ (188 : Byte) ≠ (186 : Byte) := by
  have hd : water_depth 0 4 0 chunk_c1 0 = 4 := by
    rw [water_depth]
    rw [water_depth_go]; norm_num [chunk_c1, is_watery]
    rw [water_depth_go]; norm_num [chunk_c1, is_watery]
    rw [water_depth_go]; norm_num [chunk_c1, is_watery]
    rw [water_depth_go]; norm_num [chunk_c1, is_watery]
    exact fun h => absurd h (by decide)
  refine ⟨by norm_num [chunk_c1], by norm_num [chunk_c1], by norm_num [chunk_c1],
    by norm_num [chunk_c1], by decide, by decide, hd, ?_, by decide⟩
  rw [hd]
  decide

/-- The while loop of render.rs `TopShadeRenderer::drill_for_colour`, with
the number of remaining loop iterations the loop is allowed made an
explicit fuel argument: the loop condition `colour[3] != 255 && y >= y_min`
is checked before each iteration, and `none` stands for running out of
fuel with the condition still true (shown unreachable for fuel at least
`y_start - y_min + 1` in the termination theorem).  The palette is the
abstract Palette capability. -/
def drill_for_colour_go (palette : Block → Option Biome → Rgba) (chunk : Chunk)
    (x z : Nat) (y_min : Int) : Nat → Int → Rgba → Option Rgba
  | 0, y, colour =>
    if colour.a ≠ (255 : Byte) ∧ y ≥ y_min then none else some colour
  | fuel + 1, y, colour =>
    if colour.a ≠ (255 : Byte) ∧ y ≥ y_min then
      match chunk.blockAt x y z with
      | none => some colour
      | some current_block =>
        if is_airy current_block then
          drill_for_colour_go palette chunk x z y_min fuel (y - 1) colour
        else if is_watery current_block then
          let block_colour := palette current_block (chunk.biomeAt x y z)
          let depth := water_depth x y z chunk y_min
          let alpha := water_depth_to_alpha depth
          drill_for_colour_go palette chunk x z y_min fuel (y - depth)
            (a_over_b_colour colour ⟨block_colour.r, block_colour.g, block_colour.b, alpha⟩)
        else
          drill_for_colour_go palette chunk x z y_min fuel (y - 1)
            (a_over_b_colour colour (palette current_block (chunk.biomeAt x y z)))
    else some colour

/-- render.rs `drill_for_colour`: run the loop from `y_start` with the
accumulated colour starting fully transparent; the fuel
`y_start - y_min + 1` is enough for the loop to exit on its own, so the
default is never taken. -/
def drill_for_colour (palette : Block → Option Biome → Rgba) (x : Nat) (y_start : Int)
    (z : Nat) (chunk : Chunk) (y_min : Int) : Rgba :=
  (drill_for_colour_go palette chunk x z y_min (y_start - y_min + 1).toNat y_start
    ⟨0, 0, 0, 0⟩).getD ⟨0, 0, 0, 0⟩

theorem water_depth_pos (x : Nat) (y : Int) (z : Nat) (chunk : Chunk) (y_min : Int) :
    1 ≤ water_depth x y z chunk y_min := by
  rw [water_depth_spec]
  omega

/-- C10: the drill loop terminates: every iteration either returns
immediately or decreases y by at least 1 (airy and opaque blocks by
exactly 1, watery blocks by the water depth, which is at least 1), and the
loop condition requires y at least y_min, so a fuel of
y - y_min + 1 loop iterations is never exhausted. -/
theorem drill_for_colour_terminates (palette : Block → Option Biome → Rgba)
    (chunk : Chunk) (x z : Nat) (y_min : Int) (fuel : Nat) (y : Int) (colour : Rgba)
    (hfuel : (y - y_min + 1).toNat ≤ fuel) :
    (drill_for_colour_go palette chunk x z y_min fuel y colour).isSome = true
    ∧ 1 ≤ water_depth x y z chunk y_min := by
  refine ⟨?_, water_depth_pos x y z chunk y_min⟩
  induction fuel generalizing y colour with
  | zero =>
    rw [drill_for_colour_go]
    have hcond : ¬ (colour.a ≠ (255 : Byte) ∧ y ≥ y_min) := by
      rintro ⟨-, hy⟩
      omega
    rw [if_neg hcond]
    rfl
  | succ fuel ih =>
    rw [drill_for_colour_go]
    by_cases hcond : colour.a ≠ (255 : Byte) ∧ y ≥ y_min
    · rw [if_pos hcond]
      match hblock : chunk.blockAt x y z with
      | none => rfl
      | some current_block =>
        have hy : y_min ≤ y := hcond.2
        by_cases hair : is_airy current_block
        · simp only [if_pos hair]
          exact ih (y - 1) colour (by omega)
        · have hdepth := water_depth_pos x y z chunk y_min
          by_cases hwater : is_watery current_block
          · simp only [if_neg hair, if_pos hwater]
            exact ih (y - water_depth x y z chunk y_min) _ (by omega)
          · simp only [if_neg hair, if_neg hwater]
            exact ih (y - 1) _ (by omega)
    · rw [if_neg hcond]
      rfl

/-- C10 witness: the drill loop at the concrete water column chunk,
started at y = 4 with y_min = 0 and fuel 5, is exhausted by neither
branch. -/
theorem drill_for_colour_terminates_witness :
    (drill_for_colour_go (fun _ _ => ⟨7, 7, 7, 255⟩) chunk_c1 0 0 0 5 4
      ⟨0, 0, 0, 0⟩).isSome = true
    ∧ 1 ≤ water_depth 0 4 0 chunk_c1 0 :=
  drill_for_colour_terminates (fun _ _ => ⟨7, 7, 7, 255⟩) chunk_c1 0 0 0 5 4
    ⟨0, 0, 0, 0⟩ (by decide)

/-- Modelled from the spec: a Section is a fixed-size 16x16x16 slab with
block storage and biome storage at 4x4x4 granularity (spec section 3);
lookups report absent outside the 16 cubed domain, and the block iterator
enumerates the storage in the fixed scan order x fastest, then z, then y.
The concrete Section type (complete/section.rs) is not among the provided
sources. -/
structure Section where
  blocks : Nat → Nat → Nat → Block
  biomes : Nat → Nat → Nat → Biome

/-- Modelled from the spec: a Section reports a block exactly inside its
16 cubed domain. -/
def Section.block (s : Section) (x y z : Nat) : Option Block :=
  if x < 16 ∧ y < 16 ∧ z < 16 then some (s.blocks x y z) else none

/-- Modelled from the spec: biome lookup at the reduced 4x4x4 granularity. -/
def Section.biome (s : Section) (x y z : Nat) : Option Biome :=
  if x < 16 ∧ y < 16 ∧ z < 16 then some (s.biomes (x / 4) (y / 4) (z / 4)) else none

/-- Modelled from the spec: the fixed scan order of a single slab, x
fastest, then z, then y. -/
def section_scan_order : List (Nat × Nat × Nat) :=
  (List.range 16).flatMap fun y =>
    (List.range 16).flatMap fun z =>
      (List.range 16).map fun x => (x, y, z)

/-- Modelled from the spec: the per-slab block iterator as the list of
blocks it yields, one per cell of the slab, in the fixed scan order. -/
def Section.iter_blocks (s : Section) : List Block :=
  section_scan_order.map fun p => s.blocks p.1 p.2.1 p.2.2

theorem section_scan_order_length : section_scan_order.length = 4096 := by
  simp [section_scan_order, List.length_flatMap, Function.comp_def, List.map_const]

theorem section_iter_blocks_length (s : Section) : s.iter_blocks.length = 4096 := by
  rw [Section.iter_blocks, List.length_map, section_scan_order_length]

/-- complete/section_tower.rs `SectionTower`: an ordered stack of slabs
plus the absolute vertical bounds. -/
structure SectionTower where
  sections : List Section
  y_min : Int
  y_max : Int

/-- complete/section_tower.rs `y_to_index`: `((y - self.y_min) / 16) as usize`.
Rust isize division truncates toward zero; for `y` at least `y_min` the
operand is non-negative, where this agrees with Lean Int division. -/
def SectionTower.y_to_index (t : SectionTower) (y : Int) : Nat :=
  ((y - t.y_min) / 16).toNat

/-- complete/section_tower.rs `SectionTower::block`: resolve the slab
index, fetch the slab (the source unwraps; an out-of-range index is a
contract violation and is modelled as an absent result), compute the
slab-local vertical offset `y - ((16 * section_index) as isize + y_min)`
and delegate to the slab. -/
def SectionTower.block (t : SectionTower) (x : Nat) (y : Int) (z : Nat) : Option Block :=
  let section_index := t.y_to_index y
  match t.sections.get? section_index with
  | none => none
  | some s =>
    let section_y := y - ((16 * section_index : Nat) + t.y_min)
    s.block x section_y.toNat z

/-- complete/section_tower.rs `SectionTower::biome`: identical resolution,
delegating to the slab biome lookup. -/
def SectionTower.biome (t : SectionTower) (x : Nat) (y : Int) (z : Nat) : Option Biome :=
  let section_index := t.y_to_index y
  match t.sections.get? section_index with
  | none => none
  | some s =>
    let section_y := y - ((16 * section_index : Nat) + t.y_min)
    s.biome x section_y.toNat z

/-- The SectionTower length invariant of spec section 3: the vertical
extent is a non-negative exact multiple of 16 and there is one slab per
16 blocks of height. -/
def tower_invariant (t : SectionTower) : Prop :=
  t.y_min ≤ t.y_max
  ∧ (t.y_max - t.y_min) % 16 = 0
  ∧ (t.sections.length : Int) = (t.y_max - t.y_min) / 16

instance (t : SectionTower) : Decidable (tower_invariant t) := by
  unfold tower_invariant
  infer_instance

/-- C4: on a tower satisfying the length invariant and a vertical
coordinate inside the vertical range, the lookup resolves the slab index
as (y - y_min) / 16, which lands inside the slab array; the slab-local
offset y - (16 * index + y_min) lies in 0..16; and both the block and the
biome lookup return exactly what the owning slab returns at
(x, offset, z). -/
theorem section_tower_block_spec (t : SectionTower) (x z : Nat) (y : Int)
    (hinv : tower_invariant t) (hy1 : t.y_min ≤ y) (hy2 : y < t.y_max) :
    t.y_to_index y < t.sections.length
    ∧ 0 ≤ y - ((16 * t.y_to_index y : Nat) + t.y_min)
    ∧ y - ((16 * t.y_to_index y : Nat) + t.y_min) < 16
    ∧ ∀ s, t.sections.get? (t.y_to_index y) = some s →
        t.block x y z = s.block x (y - ((16 * t.y_to_index y : Nat) + t.y_min)).toNat z
        ∧ t.biome x y z = s.biome x (y - ((16 * t.y_to_index y : Nat) + t.y_min)).toNat z := by
  obtain ⟨hle, hmod, hlen⟩ := hinv
  have hidx : t.y_to_index y < t.sections.length ∧
      0 ≤ y - ((16 * t.y_to_index y : Nat) + t.y_min) ∧
      y - ((16 * t.y_to_index y : Nat) + t.y_min) < 16 := by
    unfold SectionTower.y_to_index
    omega
  refine ⟨hidx.1, hidx.2.1, hidx.2.2, ?_⟩
  intro s hs
  constructor
  · rw [SectionTower.block, hs]
  · rw [SectionTower.biome, hs]

/-- A concrete slab filled with stone. -/
def section_a : Section := ⟨fun _ _ _ => ⟨"minecraft:stone"⟩, fun _ _ _ => ⟨1⟩⟩

/-- A concrete slab filled with dirt. -/
def section_b : Section := ⟨fun _ _ _ => ⟨"minecraft:dirt"⟩, fun _ _ _ => ⟨2⟩⟩

/-- A concrete two-slab tower spanning y = -16 to 16. -/
def tower_ex : SectionTower := ⟨[section_a, section_b], -16, 16⟩

/-- C4 witness: the concrete tower at the slab boundary y = 0 (the first
row of the upper slab): the index is 1, the offset 0, and both lookups
delegate to the upper slab. -/
theorem section_tower_block_spec_witness :
    tower_ex.y_to_index 0 < tower_ex.sections.length
    ∧ 0 ≤ (0 : Int) - ((16 * tower_ex.y_to_index 0 : Nat) + tower_ex.y_min)
    ∧ (0 : Int) - ((16 * tower_ex.y_to_index 0 : Nat) + tower_ex.y_min) < 16
    ∧ (tower_ex.block 3 0 5
        = section_b.block 3 ((0 : Int) - ((16 * tower_ex.y_to_index 0 : Nat) + tower_ex.y_min)).toNat 5
      ∧ tower_ex.biome 3 0 5
        = section_b.biome 3 ((0 : Int) - ((16 * tower_ex.y_to_index 0 : Nat) + tower_ex.y_min)).toNat 5) := by
  have h := section_tower_block_spec tower_ex 3 5 0 (by decide) (by decide) (by decide)
  exact ⟨h.1, h.2.1, h.2.2.1, h.2.2.2 section_b rfl⟩

/-- Modelled from the spec: the decoded java::SectionTower consumed by the
three construction-time adapters, exposing its section list (take_sections)
and its vertical bounds (y_min, y_max).  The java module is not among the
provided sources. -/
structure JavaSectionTower (α : Type) where
  sections : List α
  y_min : Int
  y_max : Int

/-- The length invariant on a decoded tower, matching tower_invariant. -/
def java_invariant {α : Type} (t : JavaSectionTower α) : Prop :=
  t.y_min ≤ t.y_max
  ∧ (t.y_max - t.y_min) % 16 = 0
  ∧ (t.sections.length : Int) = (t.y_max - t.y_min) / 16

instance {α : Type} (t : JavaSectionTower α) : Decidable (java_invariant t) := by
  unfold java_invariant
  infer_instance

/-- complete/section_tower.rs `From java::SectionTower of java::Section`:
copy the vertical bounds and push the conversion of every decoded section
in order.  The per-section conversion lives outside the provided sources
and is the abstract parameter conv. -/
def section_tower_from_java {α : Type} (conv : α → Section)
    (current_tower : JavaSectionTower α) : SectionTower :=
  ⟨current_tower.sections.map conv, current_tower.y_min, current_tower.y_max⟩

/-- complete/section_tower.rs `From (java::SectionTower of Pre18Section, Vec of Biome)`:
copy the vertical bounds, enumerate the decoded sections, skip the first
one, and push the conversion of each remaining section paired with its
64-entry biome slice `current_biomes[(index - 1) * 64 .. index * 64]`
(the slice has length index * 64 - (index - 1) * 64 = 64 for the indices
that survive the skip).  The pair conversion is the abstract parameter
conv. -/
def section_tower_from_pre18 {α : Type} (conv : α → List Biome → Section)
    (current_tower : JavaSectionTower α) (current_biomes : List Biome) : SectionTower :=
  ⟨(current_tower.sections.enum.drop 1).map
      (fun p => conv p.2 ((current_biomes.drop ((p.1 - 1) * 64)).take 64)),
   current_tower.y_min, current_tower.y_max⟩

/-- complete/section_tower.rs `From (java::SectionTower of Pre13Section, Vec of Block, Vec of Biome)`:
copy the vertical bounds, enumerate the decoded sections (whose own
contents are ignored), and push one converted section per decoded index
from the 4096-entry block slice `current_blocks[index * 4096 .. (index + 1) * 4096]`
and the 64-entry biome slice `current_biomes[index * 64 .. (index + 1) * 64]`.
The slice conversion is the abstract parameter conv. -/
def section_tower_from_pre13 {α : Type} (conv : List Block → List Biome → Section)
    (current_tower : JavaSectionTower α) (current_blocks : List Block)
    (current_biomes : List Biome) : SectionTower :=
  ⟨current_tower.sections.enum.map
      (fun p => conv ((current_blocks.drop (p.1 * 4096)).take 4096)
        ((current_biomes.drop (p.1 * 64)).take 64)),
   current_tower.y_min, current_tower.y_max⟩

/-- C3 (amended): the current-generation and pre-1.13 constructors
preserve the length invariant: assuming the decoded input tower satisfies
it, the built tower does too.  The pre-1.18 constructor does not: it
keeps the vertical bounds of the input but discards the first decoded
slab, so it builds one section fewer than the input has, and under the
stated assumption on the input the built tower violates the invariant
whenever the input is non-empty; the built tower satisfies the invariant
exactly when the input tower carries one more section than
(y_max - y_min) / 16. -/
theorem section_tower_constructors_spec {α β γ : Type} (conv1 : α → Section)
    (conv2 : β → List Biome → Section) (conv3 : List Block → List Biome → Section)
    (t1 : JavaSectionTower α) (t2 : JavaSectionTower β) (biomes2 : List Biome)
    (t3 : JavaSectionTower γ) (blocks3 : List Block) (biomes3 : List Biome) :
    (java_invariant t1 → tower_invariant (section_tower_from_java conv1 t1))
    ∧ ((section_tower_from_pre18 conv2 t2 biomes2).sections.length
          = t2.sections.length - 1
        ∧ (section_tower_from_pre18 conv2 t2 biomes2).y_min = t2.y_min
        ∧ (section_tower_from_pre18 conv2 t2 biomes2).y_max = t2.y_max)
    ∧ (java_invariant t3 →
        tower_invariant (section_tower_from_pre13 conv3 t3 blocks3 biomes3)) := by
  refine ⟨?_, ⟨?_, rfl, rfl⟩, ?_⟩
  · intro h
    obtain ⟨h1, h2, h3⟩ := h
    exact ⟨h1, h2, by simpa [section_tower_from_java] using h3⟩
  · simp [section_tower_from_pre18]
  · intro h
    obtain ⟨h1, h2, h3⟩ := h
    exact ⟨h1, h2, by simpa [section_tower_from_pre13] using h3⟩

/-- A trivial pair conversion for the pre-1.18 counterexample. -/
def conv_pre18_triv : Unit → List Biome → Section := fun _ _ => section_a

/-- A decoded one-section tower spanning 0..16, satisfying the decoded
length invariant. -/
def java_pre18_ex : JavaSectionTower Unit := ⟨[()], 0, 16⟩

/-- C3 counterexample: the pre-1.18 constructor applied to a decoded
tower that satisfies the stated section-count relation produces a tower
with 0 sections but vertical extent 16, violating the invariant
sections.len() = (y_max - y_min) / 16. -/
theorem section_tower_pre18_counter :
    java_invariant java_pre18_ex
    ∧ (section_tower_from_pre18 conv_pre18_triv java_pre18_ex []).sections.length = 0
    ∧ (section_tower_from_pre18 conv_pre18_triv java_pre18_ex []).y_max
        - (section_tower_from_pre18 conv_pre18_triv java_pre18_ex []).y_min = 16
    ∧ ¬ tower_invariant (section_tower_from_pre18 conv_pre18_triv java_pre18_ex []) := by
  refine ⟨by decide, rfl, rfl, ?_⟩
  intro h
  have := h.2.2
  simp [section_tower_from_pre18, java_pre18_ex] at this

/-- C3 witness: instantiation of the amended claim at concrete decoded
towers: a one-section current-generation tower and a one-section pre-1.13
tower spanning 0..16, and the pre-1.18 input above. -/
theorem section_tower_constructors_spec_witness :
    tower_invariant (section_tower_from_java (fun _ : Unit => section_a) ⟨[()], 0, 16⟩)
    ∧ (section_tower_from_pre18 conv_pre18_triv java_pre18_ex []).sections.length
        = java_pre18_ex.sections.length - 1
    ∧ tower_invariant
        (section_tower_from_pre13 (fun _ _ => section_b) (⟨[()], 0, 16⟩ : JavaSectionTower Unit) [] []) := by
  have h := section_tower_constructors_spec (fun _ : Unit => section_a) conv_pre18_triv
    (fun _ _ => section_b) ⟨[()], 0, 16⟩ java_pre18_ex [] ⟨[()], 0, 16⟩ [] []
  exact ⟨h.1 (by decide), h.2.1.1, h.2.2 (by decide)⟩

/-- complete/section_tower.rs `SectionTowerBlockIter`: the current section
index and the remaining part of the current section iterator (the blocks
it has not yet yielded). -/
structure SectionTowerBlockIter where
  section_index_current : Nat
  section_iter_current : List Block

/-- complete/section_tower.rs `Iterator::next` for SectionTowerBlockIter:
yield from the current section iterator; when it is exhausted, return
None if the current section was the last one (`section_index_current >=
sections.len() - 1`), otherwise advance to the next section (the source
unwrap of the in-range index is modelled by the impossible None branch)
and return that fresh iterator's first answer directly. -/
def tower_iter_next (sections : List Section) :
    SectionTowerBlockIter → Option (Block × SectionTowerBlockIter)
  | ⟨idx, block :: rest⟩ => some (block, ⟨idx, rest⟩)
  | ⟨idx, []⟩ =>
    if sections.length - 1 ≤ idx then none
    else
      match sections[idx + 1]? with
      | none => none
      | some s =>
        match s.iter_blocks with
        | [] => none
        | block :: rest => some (block, ⟨idx + 1, rest⟩)

/-- complete/section_tower.rs `SectionTowerBlockIter::new`: start at
section index 0 with the first section's fresh iterator (the source
unwraps `sections.get(0)`; an empty tower is modelled as no iterator). -/
def tower_iter_init (t : SectionTower) : Option SectionTowerBlockIter :=
  (t.sections[0]?).map fun s => ⟨0, s.iter_blocks⟩

/-- The sequence of blocks the iterator yields within the given number of
`next` calls: repeatedly call `tower_iter_next`, stopping at the first
None. -/
def tower_iter_emit (sections : List Section) : Nat → SectionTowerBlockIter → List Block
  | 0, _ => []
  | fuel + 1, st =>
    match tower_iter_next sections st with
    | none => []
    | some (block, st2) => block :: tower_iter_emit sections fuel st2

theorem tower_iter_next_cons (sections : List Section) (idx : Nat) (b : Block)
    (rest : List Block) :
    tower_iter_next sections ⟨idx, b :: rest⟩ = some (b, ⟨idx, rest⟩) := rfl

theorem tower_iter_next_last (sections : List Section) (idx : Nat)
    (h : sections.length - 1 ≤ idx) :
    tower_iter_next sections ⟨idx, []⟩ = none := by
  simp only [tower_iter_next]
  rw [if_pos h]

theorem tower_iter_next_advance (sections : List Section) (idx : Nat) (s : Section)
    (b : Block) (rest : List Block) (h : ¬ sections.length - 1 ≤ idx)
    (hget : sections[idx + 1]? = some s) (hbs : s.iter_blocks = b :: rest) :
    tower_iter_next sections ⟨idx, []⟩ = some (b, ⟨idx + 1, rest⟩) := by
  simp only [tower_iter_next, hget, hbs]
  rw [if_neg h]

theorem tower_iter_emit_step_some (sections : List Section) (fuel : Nat)
    (st st2 : SectionTowerBlockIter) (b : Block)
    (h : tower_iter_next sections st = some (b, st2)) :
    tower_iter_emit sections (fuel + 1) st = b :: tower_iter_emit sections fuel st2 := by
  simp only [tower_iter_emit, h]

theorem tower_iter_emit_step_none (sections : List Section) (fuel : Nat)
    (st : SectionTowerBlockIter) (h : tower_iter_next sections st = none) :
    tower_iter_emit sections (fuel + 1) st = [] := by
  simp only [tower_iter_emit, h]

/-- Running the iterator from an intermediate state: with the remaining
sections after the current index being tail and the current section
iterator holding rem, enough fuel yields exactly rem followed by the full
scan of every remaining section, in order. -/
theorem tower_iter_emit_run (sections : List Section) (tail : List Section) :
    ∀ (idx : Nat), sections.drop (idx + 1) = tail →
      ∀ (rem : List Block) (fuel : Nat),
        rem.length + 4096 * tail.length ≤ fuel →
        tower_iter_emit sections fuel ⟨idx, rem⟩
          = rem ++ (tail.map Section.iter_blocks).flatten := by
  induction tail with
  | nil =>
    intro idx hdrop rem
    induction rem with
    | nil =>
      intro fuel hfuel
      have hlen : sections.length ≤ idx + 1 := by
        have hd := List.length_drop (idx + 1) sections
        rw [hdrop] at hd
        simp at hd
        omega
      cases fuel with
      | zero => simp [tower_iter_emit]
      | succ f =>
        rw [tower_iter_emit_step_none sections f _ (tower_iter_next_last sections idx (by omega))]
        simp
    | cons b rest ihrem =>
      intro fuel hfuel
      obtain ⟨f, rfl⟩ : ∃ f, fuel = f + 1 := ⟨fuel - 1, by simp at hfuel; omega⟩
      rw [tower_iter_emit_step_some sections f _ _ b (tower_iter_next_cons sections idx b rest)]
      rw [ihrem f (by simp at hfuel ⊢; omega)]
      rfl
  | cons s ts ih_tail =>
    intro idx hdrop rem
    induction rem with
    | nil =>
      intro fuel hfuel
      obtain ⟨f, rfl⟩ : ∃ f, fuel = f + 1 := ⟨fuel - 1, by simp at hfuel; omega⟩
      have hlendrop : sections.length - (idx + 1) = ts.length + 1 := by
        have hd := List.length_drop (idx + 1) sections
        rw [hdrop] at hd
        simp at hd
        omega
      have hget : sections[idx + 1]? = some s := by
        have h0 : (sections.drop (idx + 1))[0]? = some s := by rw [hdrop]; simp
        rw [List.getElem?_drop] at h0
        simpa using h0
      obtain ⟨b, rest, hbs⟩ : ∃ b rest, s.iter_blocks = b :: rest := by
        cases hsi : s.iter_blocks with
        | nil =>
          exfalso
          have hl := section_iter_blocks_length s
          rw [hsi] at hl
          simp at hl
        | cons b rest => exact ⟨b, rest, rfl⟩
      have hrest_len : rest.length = 4095 := by
        have hl := section_iter_blocks_length s
        rw [hbs] at hl
        simpa using hl
      have hdrop2 : sections.drop (idx + 2) = ts := by
        have hdd : sections.drop (idx + 2) = (sections.drop (idx + 1)).drop 1 := by
          rw [List.drop_drop]
        rw [hdd, hdrop]
        rfl
      rw [tower_iter_emit_step_some sections f _ _ b
        (tower_iter_next_advance sections idx s b rest (by omega) hget hbs)]
      rw [ih_tail (idx + 1) hdrop2 rest f (by simp at hfuel; omega)]
      simp [hbs]
    | cons b rest ihrem =>
      intro fuel hfuel
      obtain ⟨f, rfl⟩ : ∃ f, fuel = f + 1 := ⟨fuel - 1, by simp at hfuel; omega⟩
      rw [tower_iter_emit_step_some sections f _ _ b (tower_iter_next_cons sections idx b rest)]
      rw [ihrem f (by simp at hfuel ⊢; omega)]
      rfl

theorem flatten_iter_length (L : List Section) :
    ((L.map Section.iter_blocks).flatten).length = 4096 * L.length := by
  induction L with
  | nil => simp
  | cons s ts ih =>
    simp [ih, section_iter_blocks_length]
    omega

/-- C9: for a tower with at least one section, the block iterator started
fresh yields exactly 16 * 16 * 16 * sections.length blocks, namely the
concatenation of each slab's own fixed scan taken in slab order bottom to
top, and then terminates: any extra fuel beyond that count produces the
same sequence, so the crossing between slabs is invisible and the iterator
never wraps; the emitted sequence is a function of the tower alone, so two
fresh iterators yield identical sequences. -/
theorem section_tower_iter_spec (t : SectionTower) (s0 : Section) (rest : List Section)
    (hsec : t.sections = s0 :: rest) :
    tower_iter_init t = some ⟨0, s0.iter_blocks⟩
    ∧ (∀ extra : Nat,
        tower_iter_emit t.sections (4096 * t.sections.length + extra) ⟨0, s0.iter_blocks⟩
          = (t.sections.map Section.iter_blocks).flatten)
    ∧ (tower_iter_emit t.sections (4096 * t.sections.length) ⟨0, s0.iter_blocks⟩).length
        = 4096 * t.sections.length := by
  have hdrop : t.sections.drop 1 = rest := by rw [hsec]; rfl
  have hrun : ∀ extra : Nat,
      tower_iter_emit t.sections (4096 * t.sections.length + extra) ⟨0, s0.iter_blocks⟩
        = (t.sections.map Section.iter_blocks).flatten := by
    intro extra
    have hbound : s0.iter_blocks.length + 4096 * rest.length
        ≤ 4096 * t.sections.length + extra := by
      rw [section_iter_blocks_length, hsec]
      simp
      omega
    have h := tower_iter_emit_run t.sections rest 0 hdrop s0.iter_blocks
      (4096 * t.sections.length + extra) hbound
    rw [h, hsec]
    simp
  refine ⟨by rw [tower_iter_init, hsec]; simp, hrun, ?_⟩
  have h0 := hrun 0
  rw [Nat.add_zero] at h0
  rw [h0, flatten_iter_length]

/-- C9 witness: instantiation at the concrete two-slab tower. -/
theorem section_tower_iter_spec_witness :
    tower_iter_init tower_ex = some ⟨0, section_a.iter_blocks⟩
    ∧ tower_iter_emit tower_ex.sections (4096 * tower_ex.sections.length + 5)
        ⟨0, section_a.iter_blocks⟩
      = (tower_ex.sections.map Section.iter_blocks).flatten
    ∧ (tower_iter_emit tower_ex.sections (4096 * tower_ex.sections.length)
        ⟨0, section_a.iter_blocks⟩).length = 4096 * tower_ex.sections.length :=
  ⟨(section_tower_iter_spec tower_ex section_a [section_b] rfl).1,
   (section_tower_iter_spec tower_ex section_a [section_b] rfl).2.1 5,
   (section_tower_iter_spec tower_ex section_a [section_b] rfl).2.2⟩

/-- Modelled from the spec: the Region capability, chunk lookup by chunk
coordinates 0..32 (spec section 6).  The chunk type is the abstract
parameter α, as render_region is generic over the Chunk implementation. -/
structure Region (α : Type) where
  chunk_at : Nat → Nat → Option α

/-- Modelled from the spec: the Dimension capability, region lookup by
region coordinates (spec section 6). -/
structure Dimension (α : Type) where
  region_at : Int → Int → Option (Region α)

/-- render.rs render_region, cache seeding: the 32-slot neighbor cache
defaults to empty and, when the region immediately north exists, slot x
is filled with that region's chunk at (x, 31). -/
def seed_cache {α : Type} (dimension : Dimension α) (x z : Int) : Nat → Option α :=
  match dimension.region_at x (z - 1) with
  | some r => fun i => r.chunk_at i 31
  | none => fun _ => none

/-- One cell (x, z) of the render_region chunk loop, restricted to its
effect on the cache: when the chunk at (x, z) is present, after rendering
it (with cache slot x as the north neighbor) the chunk replaces slot x;
when it is absent the cache is left alone. -/
def render_cell_cache {α : Type} (region : Region α) (z x : Nat)
    (cache : Nat → Option α) : Nat → Option α :=
  match region.chunk_at x z with
  | some chunk => Function.update cache x (some chunk)
  | none => cache

/-- The inner `for x in 0..32` loop of render_region, cache effect only. -/
def render_row_cache {α : Type} (region : Region α) (z : Nat)
    (cache : Nat → Option α) : Nat → Option α :=
  (List.range 32).foldl (fun c x => render_cell_cache region z x c) cache

/-- The cache state when the outer `for z in 0..32` loop reaches row z. -/
def cache_before_row {α : Type} (region : Region α) (seed : Nat → Option α) :
    Nat → Nat → Option α
  | 0 => seed
  | z + 1 => render_row_cache region z (cache_before_row region seed z)

/-- The value the render call for cell (cx, cz) reads from the cache as
its north neighbor: slot cx after all rows before cz and the cells of row
cz left of cx have been processed. -/
def north_used {α : Type} (region : Region α) (seed : Nat → Option α)
    (cx cz : Nat) : Option α :=
  ((List.range cx).foldl (fun c x => render_cell_cache region cz x c)
    (cache_before_row region seed cz)) cx

/-- The chunk most recently written into slot cx when row z starts: the
present chunk at (cx, z2) for the greatest z2 below z, and the seed slot
when no row below z has a present chunk in column cx. -/
def last_present {α : Type} (region : Region α) (seed : Nat → Option α)
    (cx : Nat) : Nat → Option α
  | 0 => seed cx
  | z + 1 =>
    match region.chunk_at cx z with
    | some c => some c
    | none => last_present region seed cx z

theorem render_cell_cache_other {α : Type} (region : Region α) (z x : Nat)
    (cache : Nat → Option α) (i : Nat) (h : i ≠ x) :
    render_cell_cache region z x cache i = cache i := by
  unfold render_cell_cache
  cases region.chunk_at x z with
  | none => rfl
  | some c => exact Function.update_noteq h _ _

theorem foldl_cells_not_mem {α : Type} (region : Region α) (cz : Nat) :
    ∀ (L : List Nat) (cache : Nat → Option α) (i : Nat), i ∉ L →
      (L.foldl (fun c x => render_cell_cache region cz x c) cache) i = cache i := by
  intro L
  induction L with
  | nil => intro cache i _; rfl
  | cons a L2 ih =>
    intro cache i hi
    rw [List.foldl_cons, ih _ _ (fun hm => hi (List.mem_cons_of_mem a hm))]
    exact render_cell_cache_other region cz a cache i (fun he => hi (he ▸ List.mem_cons_self a L2))

theorem foldl_cells_mem {α : Type} (region : Region α) (cz : Nat) :
    ∀ (L : List Nat) (cache : Nat → Option α) (i : Nat), i ∈ L →
      (L.foldl (fun c x => render_cell_cache region cz x c) cache) i
        = match region.chunk_at i cz with
          | some c => some c
          | none => cache i := by
  intro L
  induction L with
  | nil => intro cache i hi; exact absurd hi (List.not_mem_nil i)
  | cons a L2 ih =>
    intro cache i hi
    rw [List.foldl_cons]
    by_cases hmem : i ∈ L2
    · rw [ih _ _ hmem]
      cases h : region.chunk_at i cz with
      | some c => rfl
      | none =>
        show render_cell_cache region cz a cache i = cache i
        by_cases hia : i = a
        · subst hia
          simp [render_cell_cache, h]
        · exact render_cell_cache_other region cz a cache i hia
    · have hia : i = a := by
        rcases List.mem_cons.mp hi with h | h
        · exact h
        · exact absurd h hmem
      subst hia
      rw [foldl_cells_not_mem region cz L2 _ i hmem]
      cases h : region.chunk_at i cz with
      | some c => simp [render_cell_cache, h]
      | none => simp [render_cell_cache, h]

theorem render_row_cache_get {α : Type} (region : Region α) (z : Nat)
    (cache : Nat → Option α) (i : Nat) (hi : i < 32) :
    render_row_cache region z cache i
      = match region.chunk_at i z with
        | some c => some c
        | none => cache i :=
  foldl_cells_mem region z (List.range 32) cache i (List.mem_range.mpr hi)

theorem cache_before_row_eq {α : Type} (region : Region α) (seed : Nat → Option α)
    (cx : Nat) (hcx : cx < 32) :
    ∀ cz : Nat, cache_before_row region seed cz cx = last_present region seed cx cz := by
  intro cz
  induction cz with
  | zero => rfl
  | succ z ih =>
    show render_row_cache region z (cache_before_row region seed z) cx = _
    rw [render_row_cache_get region z _ cx hcx]
    cases h : region.chunk_at cx z with
    | some c => simp [last_present, h]
    | none => simp [last_present, h, ih]

theorem north_used_eq_cache {α : Type} (region : Region α) (seed : Nat → Option α)
    (cx cz : Nat) :
    north_used region seed cx cz = cache_before_row region seed cz cx := by
  unfold north_used
  exact foldl_cells_not_mem region cz (List.range cx) _ cx
    (fun hm => absurd (List.mem_range.mp hm) (lt_irrefl cx))

/-- C2 (amended): during render_region, cache slot x at the start of a row
holds the most recently cached chunk in column x, not necessarily the
chunk of the previous row: a present chunk at (cx, cz) is rendered with
its north neighbor being the present chunk at (cx, cz2) for the greatest
cz2 below cz, falling back to the north-region seed slot (the north
region's chunk at (cx, 31) when that region exists, empty otherwise) when
no earlier row has a present chunk in column cx.  Equivalently, finishing
row z overwrites slot x with the chunk at (x, z) only when that chunk is
present and leaves the stale slot content otherwise. -/
theorem render_region_cache_spec {α : Type} (region : Region α)
    (seed : Nat → Option α) (cx cz : Nat) (hcx : cx < 32) :
    north_used region seed cx cz = last_present region seed cx cz
    ∧ (cache_before_row region seed (cz + 1) cx
        = match region.chunk_at cx cz with
          | some c => some c
          | none => cache_before_row region seed cz cx)
    ∧ (∀ (dimension : Dimension α) (rx rz : Int),
        north_used region (seed_cache dimension rx rz) cx 0
          = match dimension.region_at rx (rz - 1) with
            | some r => r.chunk_at cx 31
            | none => none) := by
  refine ⟨?_, ?_, ?_⟩
  · rw [north_used_eq_cache, cache_before_row_eq region seed cx hcx]
  · show render_row_cache region cz (cache_before_row region seed cz) cx = _
    exact render_row_cache_get region cz _ cx hcx
  · intro dimension rx rz
    rw [north_used_eq_cache]
    show seed_cache dimension rx rz cx = _
    unfold seed_cache
    cases dimension.region_at rx (rz - 1) with
    | some r => rfl
    | none => rfl

/-- The concrete region for the cache counterexample: column 0 has a
present chunk in rows 0 and 2 and a missing chunk in row 1. -/
def region_c2 : Region Nat :=
  ⟨fun x z =>
    if x = 0 ∧ z = 0 then some 100
    else if x = 0 ∧ z = 2 then some 102
    else none⟩

/-- C2 counterexample: the chunk at (0, 2) is present and the chunk
directly above at (0, 1) is absent, yet the render call for (0, 2) reads
the stale chunk cached from row 0 as its north neighbor instead of no
chunk. -/
theorem render_region_cache_counter :
    region_c2.chunk_at 0 2 = some 102
    ∧ region_c2.chunk_at 0 1 = none
    ∧ north_used region_c2 (fun _ => none) 0 2 = some 100
    ∧ some 100 ≠ (none : Option Nat) := by
  refine ⟨rfl, rfl, ?_, by simp⟩
  rw [north_used_eq_cache, cache_before_row_eq region_c2 _ 0 (by norm_num)]
  show (match region_c2.chunk_at 0 1 with
        | some c => some c
        | none => last_present region_c2 (fun _ => none) 0 1) = some 100
  show last_present region_c2 (fun _ => none) 0 1 = some 100
  show (match region_c2.chunk_at 0 0 with
        | some c => some c
        | none => last_present region_c2 (fun _ => none) 0 0) = some 100
  rfl

/-- C2 witness: instantiation of the amended claim at the concrete region,
an empty seed, column 0 and row 2, and at the trivial dimension for the
seeding clause. -/
theorem render_region_cache_spec_witness :
    north_used region_c2 (fun _ => none) 0 2 = last_present region_c2 (fun _ => none) 0 2
    ∧ (cache_before_row region_c2 (fun _ => none) 3 0
        = match region_c2.chunk_at 0 2 with
          | some c => some c
          | none => cache_before_row region_c2 (fun _ => none) 2 0)
    ∧ north_used region_c2 (seed_cache (⟨fun _ _ => none⟩ : Dimension Nat) 0 0) 0 0
        = match (⟨fun _ _ => none⟩ : Dimension Nat).region_at 0 (0 - 1) with
          | some r => r.chunk_at 0 31
          | none => none :=
  ⟨(render_region_cache_spec region_c2 (fun _ => none) 0 2 (by norm_num)).1,
   (render_region_cache_spec region_c2 (fun _ => none) 0 2 (by norm_num)).2.1,
   (render_region_cache_spec region_c2 (fun _ => none) 0 0 (by norm_num)).2.2
     ⟨fun _ _ => none⟩ 0 0⟩
